import Mathlib

/-!
Shallow embedding of the coffea processor executor core
(`src/coffea/processor/executor.py`) together with proofs about its
chunking, retry, futures, codec and tree-reduction logic.

Python strings (dataset, filename, treename, uuid) never influence the
control flow of the embedded functions, so they are carried as an opaque
type parameter `σ`.  Python `int` values are embedded as `ℕ` (all relevant
quantities - entry counts, chunk sizes, retry counters - are non-negative).
-/

/-- Decidable equality for `Except`, used to evaluate the embedded
fallible functions on concrete inputs. -/
instance [DecidableEq ε] [DecidableEq α] : DecidableEq (Except ε α)
  | .ok a, .ok b =>
    if h : a = b then .isTrue (by rw [h]) else .isFalse (by simp [h])
  | .error a, .error b =>
    if h : a = b then .isTrue (by rw [h]) else .isFalse (by simp [h])
  | .ok _, .error _ => .isFalse (by simp)
  | .error _, .ok _ => .isFalse (by simp)

/-! ## Exceptions and the retry driver (`Runner.automatic_retries`) -/

/-- Abstraction of a Python exception as seen by `Runner.automatic_retries`:
the only facts the retry loop inspects about the raised error `e` are
predicates of its exception chain `_exception_chain(e)`.
`isIOorTree`: some element of the chain is an `OSError` or
`UprootMissTreeError` instance; `hasAuthMsg`: some `str(c)` contains
`Auth failed`; `hasTransientMsg`: some `str(c)` contains one of
`Invalid redirect URL`, `Operation expired`, `Socket timeout`. -/
structure PyExc where
  isIOorTree : Bool
  hasAuthMsg : Bool
  hasTransientMsg : Bool
deriving DecidableEq

/-- Result of one call of the wrapped task function: it either returns a
value or raises an exception. -/
inductive CallOutcome (α : Type u) where
  | ok (v : α)
  | raise (e : PyExc)
deriving DecidableEq

/-- Result of `Runner.automatic_retries`: a returned value, a re-raised
exception, or the implicit `None` return that Python produces when the
loop is left through `break` (the bad-file skip paths). -/
inductive RetryResult (α : Type u) where
  | ok (v : α)
  | raised (e : PyExc)
  | skipped
deriving DecidableEq

/-- Decision taken by the `except` block of `Runner.automatic_retries`
(executor.py lines 1099-1127) for a caught exception `e`.  `isFinal`
stands for `retries == retry_count`.  `some r` means the loop terminates
with outcome `r` (`skipped` = `break`, i.e. return `None`; `raised` =
`raise e`); `none` means the loop warns and retries. -/
def retryStep (skip : Bool) (e : PyExc) (isFinal : Bool) : Option (RetryResult α) :=
  if skip && e.isIOorTree then some .skipped
  else if skip && isFinal && e.hasTransientMsg then some .skipped
  else if !skip || e.hasAuthMsg || isFinal then some (.raised e)
  else none

/-- The retry loop of `Runner.automatic_retries`.  `func i` is the outcome
of the `(i+1)`-st call of the wrapped function, `rc` the current
`retry_count` and `left` the number of retries still available
(`left = retries - retry_count`, so `left = 0` iff `retries == retry_count`).
The second component counts how many times `func` was invoked.
When `left = 0` the third `except` branch always terminates the loop, so the
`getD` default is unreachable. -/
def autoRetryGo (skip : Bool) (func : ℕ → CallOutcome α) : ℕ → ℕ → RetryResult α × ℕ
  | 0, rc =>
    (match func rc with
     | .ok v => .ok v
     | .raise e => (retryStep skip e true).getD (.raised e), 1)
  | left + 1, rc =>
    match func rc with
    | .ok v => (.ok v, 1)
    | .raise e =>
      match retryStep skip e false with
      | some r => (r, 1)
      | none =>
        let r := autoRetryGo skip func left (rc + 1)
        (r.1, r.2 + 1)

/-- `Runner.automatic_retries(retries, skipbadfiles, func, ...)`
(executor.py lines 1088-1128), with the successive outcomes of
`func(*args, **kwargs)` given by `func 0, func 1, ...`. -/
def automatic_retries (retries : ℕ) (skip : Bool) (func : ℕ → CallOutcome α) :
    RetryResult α :=
  (autoRetryGo skip func retries 0).1

/-- Number of attempts (invocations of the wrapped function) that
`Runner.automatic_retries` performs. -/
def automatic_retries_calls (retries : ℕ) (skip : Bool) (func : ℕ → CallOutcome α) : ℕ :=
  (autoRetryGo skip func retries 0).2

/-! ## The codec (`_compress` / `_decompress`) -/

/-- A Python object as handled by the codec: `pynone` is `None`,
`pybytes v` is a `bytes` object, namely the LZ4 frame of the pickle of the
object `v` (serialization is abstracted as the injective constructor
`pybytes`, whose inverse is exact unpickling), and `other a` is any other
object, e.g. a user accumulator of payload type `α`. -/
inductive PyObj (α : Type u) where
  | pynone
  | pybytes (v : PyObj α)
  | other (a : α)
deriving DecidableEq

instance : Inhabited (PyObj α) := ⟨.pynone⟩

/-- Whether the object is an instance of `bytes` (the check performed by
`_decompress`). -/
def PyObj.isBytes : PyObj α → Bool
  | .pybytes _ => true
  | _ => false

/-- Whether the object `is None`. -/
def PyObj.isNone : PyObj α → Bool
  | .pynone => true
  | _ => false

/-- `_compress(item, compression)` (executor.py lines 157-165): `None` and
a null compression level pass through, otherwise the item is pickled and
LZ4-framed into a `bytes` object. -/
def pyCompress (item : PyObj α) (compression : Option ℕ) : PyObj α :=
  match item, compression with
  | .pynone, _ => .pynone
  | it, none => it
  | it, some _ => .pybytes it

/-- `_decompress(item)` (executor.py lines 168-176): a `bytes` object is
un-framed and unpickled, anything else passes through unchanged. -/
def pyDecompress : PyObj α → PyObj α
  | .pybytes v => v
  | it => it

/-! ## The accumulator protocol

`accumulate` lives in the repository's `processor.accumulator` module,
which is not under `src/`; it is modelled from the spec. -/

/-- Merge of two Python objects given the user accumulator merge on the
payload type.  Merging operands that are not accumulator payloads is
outside the accumulator protocol; such cases never arise in the embedded
pipelines and default to the left operand. -/
def pyMerge (merge : α → α → α) : PyObj α → PyObj α → PyObj α
  | .other a, .other b => .other (merge a b)
  | x, _ => x

/-- Modelled from the spec: `accumulate(iterable, accum)` of the
repository's accumulator module (not under `src/`) left-folds the
associative accumulator merge of every item of the iterable into `accum`. -/
def accumulateSpec (merge : α → α → α) (xs : List (PyObj α)) (init : PyObj α) :
    PyObj α :=
  xs.foldl (pyMerge merge) init

/-- Modelled from the spec: `accumulate(iterable, accum)` with a possibly
null `accum`; a null accumulator is replaced by the first item of the
iterable, and the remaining items are merge-folded into it. -/
def accumulateSpecFull (merge : α → α → α) (xs : List (PyObj α)) (accum : PyObj α) :
    PyObj α :=
  match accum with
  | .pynone =>
    match xs with
    | [] => .pynone
    | h :: t => accumulateSpec merge t h
  | a => accumulateSpec merge xs a

/-! ## The reducer (`_reduce.__call__`) -/

/-- `_reduce.__call__(items)` (executor.py lines 209-217).  `None` entries
are discarded first; an empty remainder raises
`ValueError("Empty list provided to reduction")`, modelled as `.error ()`.
With compression, `items.pop()` removes and returns the LAST element,
which after decompression seeds the merge-fold of the decompressed
remaining items, and the result is re-compressed; without compression the
items are merge-folded in order. -/
def reduceCall (compression : Option ℕ) (merge : α → α → α)
    (items : List (PyObj α)) : Except Unit (PyObj α) :=
  match compression, items.filter (fun it => !it.isNone) with
  | _, [] => .error ()
  | some lvl, h :: t =>
    .ok (pyCompress
      (accumulateSpec merge ((h :: t).dropLast.map pyDecompress)
        (pyDecompress ((h :: t).getLast (List.cons_ne_nil h t))))
      (some lvl))
  | none, h :: t => .ok (accumulateSpec merge t h)

/-! ## The Dask tree reduction (`DaskExecutor.__call__`, lines 747-779) -/

/-- The consecutive slices `[work[i : i + B] for i in range(0, len(work), B)]`,
written with an explicit fuel argument (first parameter) to keep the
recursion structural; it is always called with fuel `l.length`, which
suffices because each step strictly shortens the list (the source relies on
`B ≥ 1` for the same reason: `range` with step `0` raises). -/
def sliceChunksAux (B : ℕ) : ℕ → List β → List (List β)
  | 0, _ => []
  | _, [] => []
  | fuel + 1, l => l.take B :: sliceChunksAux B fuel (l.drop B)

/-- The list of consecutive slices of size `B` of `l`. -/
def sliceChunks (B : ℕ) (l : List β) : List (List β) :=
  sliceChunksAux B l.length l

/-- The `while len(work) > 1` loop of `DaskExecutor.__call__`
(executor.py lines 748-759): each round maps the reducer over the
consecutive slices of `B = treereduction` of the current handle list; a
reducer exception fails the whole reduction.  `fuel` bounds the number of
rounds (structural recursion); it is always called with fuel
`work.length`, which suffices because every round strictly shortens a list
of length `≥ 2` when `B ≥ 2` (as in the source, whose loop would not
terminate for `B ≤ 1`). -/
def daskTreeLoop (compression : Option ℕ) (merge : α → α → α) (B : ℕ) :
    ℕ → List (PyObj α) → Except Unit (List (PyObj α))
  | 0, work => .ok work
  | fuel + 1, work =>
    if 1 < work.length then
      match (sliceChunks B work).mapM (reduceCall compression merge) with
      | .error e => .error e
      | .ok next => daskTreeLoop compression merge B fuel next
    else .ok work

/-- The reduction phase of `DaskExecutor.__call__` (executor.py lines
747-779) applied to the per-item task outputs `results` (the values the
wrapped function returned on the workers): each output is compressed in
flight by `_compression_wrapper` (`pyCompress _ compression`; the wrapper
is not installed when compression is null, and `pyCompress _ none` is the
identity, so the two agree), the handle list is tree-reduced, `work[0]` is
taken (an empty list would be an `IndexError`, modelled as `.error ()`),
decompressed when compression is on, and `accumulate`-merged with the
`accumulator` argument of the call. -/
def daskReduceResult (compression : Option ℕ) (merge : α → α → α) (B : ℕ)
    (results : List (PyObj α)) (accumulator : PyObj α) : Except Unit (PyObj α) :=
  let work := results.map (fun r => pyCompress r compression)
  match daskTreeLoop compression merge B work.length work with
  | .error e => .error e
  | .ok fin =>
    match fin with
    | [] => .error ()
    | root :: _ =>
      .ok (accumulateSpecFull merge
        [match compression with
         | none => root
         | some _ => pyDecompress root] accumulator)

/-! ## Futures holder (`_FuturesHolder.fetch`, `_good_future`) -/

/-- A `concurrent.futures` handle as inspected by `_good_future` and
`fetch`: completion state, cancellation state, the stored exception and
the stored result. -/
structure PyFuture (α : Type u) where
  done : Bool
  cancelled : Bool
  exc : Option PyExc
  res : α
deriving DecidableEq

/-- `_good_future(future)` (executor.py lines 266-267). -/
def goodFuture (f : PyFuture α) : Bool :=
  f.done && !f.cancelled && f.exc.isNone

/-- `_FuturesHolder.fetch(N)` (executor.py lines 255-263).  The driver's
`completed` set is modelled as a list whose order is the (arbitrary)
order in which `set.pop` yields elements: `min(N, len(completed))` handles
are popped from the front.  If all popped handles are good, their results
are returned (the comprehension re-checks `_good_future`) and the rest
stays in `completed`.  Otherwise the good popped handles are put back
(`set.update`) and the first bad handle's exception is raised (a bad
handle may store no exception, hence the `Option` payload; the `none`
default of the unreachable empty-bad-list case is never hit).  The second
component is the `completed` state after the call. -/
def fetchFH (N : ℕ) (completed : List (PyFuture α)) :
    Except (Option PyExc) (List α) × List (PyFuture α) :=
  let popped := completed.take (min N completed.length)
  let rest := completed.drop (min N completed.length)
  if popped.all goodFuture then
    (.ok (popped.filterMap fun f => if goodFuture f then some f.res else none), rest)
  else
    (.error (match (popped.filter fun f => !goodFuture f).head? with
             | some b => b.exc
             | none => none),
     rest ++ popped.filter goodFuture)

/-! ## Chunking (`FileMeta.chunks`, `WorkItem`) -/

/-- Python `round(a / b)` for non-negative integers `a`, `b` with `b > 0`,
i.e. rounding the exact rational `a / b` half to even (banker's rounding).
Python evaluates `a / b` in binary floating point before rounding; the
exact-rational model agrees on all magnitudes relevant here and in
particular on every tie `a / b = q + 1/2`. -/
def pyRound (a b : ℕ) : ℕ :=
  if 2 * (a % b) < b then a / b
  else if b < 2 * (a % b) then a / b + 1
  else if a / b % 2 = 0 then a / b else a / b + 1

/-- `math.ceil(a / b)` for non-negative integers with `b > 0`. -/
def pyCeilDiv (a b : ℕ) : ℕ :=
  (a + b - 1) / b

/-- The `while start < numentries` loop of `FileMeta.chunks` in unaligned
mode (executor.py lines 120-139) when the consumer never sends back a new
chunksize: `update` is then `False` from the second iteration on, so
`actual_chunksize` stays fixed and each round yields the entry range
`[start, min(numentries, start + actual))` and advances `start` to its
stop.  The fuel (first argument) makes the recursion structural; it is
always called with fuel `numentries`, which suffices since `actual ≥ 1`
makes `start` strictly increase (for `actual = 0` the source loop would
not terminate). -/
def unalignedGo (numentries actual : ℕ) : ℕ → ℕ → List (ℕ × ℕ)
  | 0, _ => []
  | fuel + 1, start =>
    if start < numentries then
      (start, min numentries (start + actual)) ::
        unalignedGo numentries actual fuel (min numentries (start + actual))
    else []

/-- Entry ranges produced by `FileMeta.chunks` in unaligned mode: with
`remaining = numentries` at `start = 0`, the source computes
`n = max(round(numentries / target_chunksize), 1)` and
`actual_chunksize = ceil(numentries / n)` once and then walks the file. -/
def fmUnalignedChunks (numentries target : ℕ) : List (ℕ × ℕ) :=
  unalignedGo numentries (pyCeilDiv numentries (max (pyRound numentries target) 1))
    numentries 0

/-- The `for c in clusters` loop of `FileMeta.chunks` in aligned mode
(executor.py lines 100-102): `last` is `chunks[-1]`, and a cluster offset
is appended as a boundary when `c >= chunks[-1] + target_chunksize`. -/
def alignedGo (target : ℕ) : ℕ → List ℕ → List ℕ
  | _, [] => []
  | last, c :: cs =>
    if last + target ≤ c then c :: alignedGo target c cs
    else alignedGo target last cs

/-- The boundary list `chunks` built by `FileMeta.chunks` in aligned mode
(executor.py lines 99-104): it starts as `[0]`, grows through the cluster
walk, and finally `clusters[-1]` is appended when it is not already the
last boundary.  Python's `clusters[-1]` raises `IndexError` on an empty
cluster list; `getLast!` returns the default `0` there, and all theorems
assume a non-empty cluster list. -/
def alignedBoundsList (clusters : List ℕ) (target : ℕ) : List ℕ :=
  let bs := 0 :: alignedGo target 0 clusters
  if clusters.getLast! ≠ bs.getLast! then bs ++ [clusters.getLast!] else bs

/-- `zip(chunks[:-1], chunks[1:])`: the consecutive boundary pairs. -/
def boundsToPairs (bs : List ℕ) : List (ℕ × ℕ) :=
  bs.zip bs.tail

/-- Entry ranges produced by `FileMeta.chunks` in aligned mode. -/
def fmAlignedChunks (clusters : List ℕ) (target : ℕ) : List (ℕ × ℕ) :=
  boundsToPairs (alignedBoundsList clusters target)

/-- `WorkItem` (executor.py lines 143-154): immutable chunk descriptor.
The string-valued fields are opaque (`σ`); `usermeta` is excluded from
identity in the source and not inspected by any claim, so it is omitted. -/
structure WorkItem (σ : Type u) where
  dataset : σ
  filename : σ
  treename : σ
  entrystart : ℕ
  entrystop : ℕ
  fileuuid : σ
deriving DecidableEq

/-- `WorkItem.__len__`. -/
def WorkItem.len (w : WorkItem σ) : ℕ :=
  w.entrystop - w.entrystart

/-- The metadata mapping of a populated `FileMeta`: the reserved keys
`numentries`, `uuid` and the optional `clusters`.  A Python metadata dict
missing `numentries` or `uuid` is modelled as the `FileMeta.metadata`
field being `none`. -/
structure FileMetaInfo where
  numentries : ℕ
  uuid : ℕ
  clusters : Option (List ℕ)
deriving DecidableEq

/-- `FileMeta` (executor.py lines 55-91): a record identifying one input
file, with optional metadata. -/
structure FileMeta (σ : Type u) where
  dataset : σ
  filename : σ
  treename : σ
  metadata : Option FileMetaInfo
deriving DecidableEq

/-- `FileMeta.populated(clusters=...)` (executor.py lines 79-91). -/
def FileMeta.populatedB (fm : FileMeta σ) (clusters : Bool) : Bool :=
  match fm.metadata with
  | none => false
  | some md => !(clusters && md.clusters.isNone)

/-- `FileMeta.chunks(target_chunksize, align_clusters)` (executor.py lines
93-140) for a consumer that never sends back a revised chunksize.  The
`RuntimeError` on a not-populated record is modelled as `none`.  The
`fileuuid` of every emitted item is `metadata["uuid"]`; `usermeta` (the
non-reserved keys) is omitted as above. -/
def FileMeta.chunksOf (fm : FileMeta ℕ) (target : ℕ) (align : Bool) :
    Option (List (WorkItem ℕ)) :=
  match fm.metadata with
  | none => none
  | some md =>
    if align then
      match md.clusters with
      | none => none
      | some cl =>
        some ((fmAlignedChunks cl target).map fun p =>
          ⟨fm.dataset, fm.filename, fm.treename, p.1, p.2, md.uuid⟩)
    else
      some ((fmUnalignedChunks md.numentries target).map fun p =>
        ⟨fm.dataset, fm.filename, fm.treename, p.1, p.2, md.uuid⟩)

/-! ## The executors' empty-items guard -/

/-- Value returned by an executor `__call__`: every non-empty run returns
the 2-tuple `(accumulator, exception_or_0)` - modelled as `pair acc err`
with `err = none` standing for the integer `0` of the no-error case - but
the `len(items) == 0` guard returns the accumulator object itself,
unpaired (`bare`). -/
inductive ExecReturn (α : Type u) where
  | bare (acc : α)
  | pair (acc : α) (err : Option PyExc)
deriving DecidableEq

/-- `IterativeExecutor.__call__` (executor.py lines 457-479): the empty
guard returns the bare accumulator; otherwise the function is mapped over
the items and the outputs are `accumulate`-folded into the accumulator,
returned as `(result, 0)`. -/
def iterativeExecutorCall (merge : α → α → α) (items : List ι) (function : ι → α)
    (accumulator : α) : ExecReturn α :=
  if items.length = 0 then .bare accumulator
  else .pair ((items.map function).foldl merge accumulator) none

/-- `FuturesExecutor.__call__` (executor.py lines 565-615): the
`len(items) == 0` guard (lines 571-572) returns the bare accumulator; the
non-empty path (pool submission and the watcher loop) is abstracted as
`rest`. -/
def futuresExecutorCall (items : List ι) (function : ι → α) (accumulator : α)
    (rest : List ι → (ι → α) → α → ExecReturn α) : ExecReturn α :=
  if items.length = 0 then .bare accumulator
  else rest items function accumulator

/-- `DaskExecutor.__call__` (executor.py lines 667-792): the
`len(items) == 0` guard (lines 673-674) returns the bare accumulator; the
non-empty path (client submission and the tree reduction modelled by
`daskReduceResult`) is abstracted as `rest`. -/
def daskExecutorCall (items : List ι) (function : ι → α) (accumulator : α)
    (rest : List ι → (ι → α) → α → ExecReturn α) : ExecReturn α :=
  if items.length = 0 then .bare accumulator
  else rest items function accumulator

/-- `ParslExecutor.__call__` (executor.py lines 861-932): the
`len(items) == 0` guard (lines 867-868) returns the bare accumulator; the
non-empty path is abstracted as `rest`. -/
def parslExecutorCall (items : List ι) (function : ι → α) (accumulator : α)
    (rest : List ι → (ι → α) → α → ExecReturn α) : ExecReturn α :=
  if items.length = 0 then .bare accumulator
  else rest items function accumulator

/-- Concrete completed-handle list used to witness the `fetch` theorem:
one good handle and one failed handle. -/
def fetchWitnessList : List (PyFuture ℕ) :=
  [⟨true, false, none, 3⟩, ⟨true, false, some ⟨false, false, false⟩, 4⟩]

/-- Merge-fold of a non-empty batch without initial accumulator (the
shape `accumulate(items)` takes on a non-empty list): the first element
seeds a left fold of the rest.  Only used through non-empty lists. -/
def batchFold [Inhabited α] (merge : α → α → α) (c : List α) : α :=
  c.tail.foldl merge c.head!

/-! ## Helper lemmas -/

theorem filterMap_good_eq_map (l : List (PyFuture α)) (h : l.all goodFuture = true) :
    (l.filterMap fun f => if goodFuture f then some f.res else none) =
      l.map PyFuture.res := by
  induction l with
  | nil => rfl
  | cons f t ih =>
    simp only [List.all_cons, Bool.and_eq_true] at h
    simp [List.filterMap_cons, h.1, ih h.2]

theorem autoRetryGo_flaky (v : α) (func : ℕ → CallOutcome α) :
    ∀ (k left rc : ℕ), k ≤ left →
      (∀ i, i < k → ∃ e : PyExc,
        func (rc + i) = .raise e ∧ e.isIOorTree = false ∧ e.hasAuthMsg = false) →
      func (rc + k) = .ok v →
      autoRetryGo true func left rc = (.ok v, k + 1) := by
  intro k
  induction k with
  | zero =>
    intro left rc _ _ hok
    simp only [Nat.add_zero] at hok
    cases left <;> simp [autoRetryGo, hok]
  | succ k ih =>
    intro left rc hle hfail hok
    obtain ⟨e, he, hio, hauth⟩ := hfail 0 (Nat.succ_pos k)
    simp only [Nat.add_zero] at he
    obtain ⟨l, rfl⟩ : ∃ l, left = l + 1 := ⟨left - 1, by omega⟩
    have hstep : retryStep (α := α) true e false = none := by
      simp [retryStep, hio, hauth]
    have hrec := ih l (rc + 1) (by omega)
      (fun i hi => by
        obtain ⟨e1, he1, h1, h2⟩ := hfail (i + 1) (by omega)
        exact ⟨e1, by rw [show rc + 1 + i = rc + (i + 1) by omega]; exact he1, h1, h2⟩)
      (by rw [show rc + 1 + k = rc + (k + 1) by omega]; exact hok)
    simp [autoRetryGo, he, hstep, hrec]

/-! ## Claim theorems -/

/-- Claim C1: every executor (`IterativeExecutor`, `FuturesExecutor`,
`DaskExecutor`, `ParslExecutor`), called with an empty items sequence,
returns the BARE accumulator object (without invoking the function),
not the pair `(zero, null)` that the executor contract, the spec and every
caller (`out, _ = pre_executor(...)`, `wrapped_out, e = executor(...)`)
expect - the `len(items) == 0` guard is missing the error component. -/
theorem c1_executors_empty_items_bug (α ι : Type) (merge : α → α → α)
    (f : ι → α) (z : α) (r₁ r₂ r₃ : List ι → (ι → α) → α → ExecReturn α) :
    iterativeExecutorCall merge [] f z = .bare z ∧
    futuresExecutorCall [] f z r₁ = .bare z ∧
    daskExecutorCall [] f z r₂ = .bare z ∧
    parslExecutorCall [] f z r₃ = .bare z ∧
    ∀ e : Option PyExc, (ExecReturn.bare z : ExecReturn α) ≠ .pair z e :=
  ⟨rfl, rfl, rfl, rfl, fun e h => by cases h⟩

/-- Claim C2 (counterexample): for a ready `FileMeta` with
`numentries = 250` and `target_chunksize = 100` the unaligned chunker does
NOT emit three `WorkItem`s of lengths `[84, 83, 83]`: Python `round` is
banker's rounding, so `round(250 / 100) = round(2.5) = 2`, giving `n = 2`
and `actual = ceil(250 / 2) = 125`. -/
theorem c2_counterexample :
    (FileMeta.chunksOf ⟨0, 0, 0, some ⟨250, 0, none⟩⟩ 100 false).map
      (List.map WorkItem.len) ≠ some [84, 83, 83] := by
  decide

/-- Claim C2 (amended): for a ready `FileMeta` with `numentries = 250` and
`target_chunksize = 100` the unaligned chunker emits exactly two
`WorkItem`s with lengths `[125, 125]` (from `n = round(2.5) = 2` under
Python's round-half-to-even and `actual = ceil(250 / 2) = 125`). -/
theorem c2_amended :
    (FileMeta.chunksOf ⟨0, 0, 0, some ⟨250, 0, none⟩⟩ 100 false).map
      (List.map WorkItem.len) = some [125, 125] := by
  decide

/-- Claim C3 (counterexample): a function that raises a generic exception
once (`k = 1 ≤ retries = 3`) and then succeeds with `7` does NOT get its
successful result returned when `skip_bad_files` is false: the condition
`not skipbadfiles or ... or retries == retry_count` re-raises the very
first exception, after a single attempt. -/
theorem c3_counterexample :
    automatic_retries 3 false
        (fun i => if i = 0 then .raise ⟨false, false, false⟩ else .ok (7 : ℕ)) ≠
      .ok 7 ∧
    automatic_retries 3 false
        (fun i => if i = 0 then .raise ⟨false, false, false⟩ else .ok (7 : ℕ)) =
      .raised ⟨false, false, false⟩ ∧
    automatic_retries_calls 3 false
        (fun i => if i = 0 then .raise ⟨false, false, false⟩ else .ok (7 : ℕ)) = 1 := by
  decide

/-- Claim C3 (amended): when `skip_bad_files` is TRUE and the first `k`
failures (`k ≤ retries`) raise exceptions whose chains contain neither an
`OSError`/`UprootMissTreeError` instance nor `Auth failed`,
`automatic_retries` makes exactly `k + 1 ≤ retries + 1` attempts and
returns the successful result of attempt `k + 1` exactly once.  (With
`skip_bad_files` false the first exception is re-raised immediately, and
with an `OSError` chain the file is skipped - see the counterexample.) -/
theorem c3_retry_flaky_success (α : Type) (retries k : ℕ) (v : α)
    (func : ℕ → CallOutcome α) (hk : k ≤ retries)
    (hfail : ∀ i, i < k → ∃ e : PyExc,
      func i = .raise e ∧ e.isIOorTree = false ∧ e.hasAuthMsg = false)
    (hok : func k = .ok v) :
    automatic_retries retries true func = .ok v ∧
    automatic_retries_calls retries true func = k + 1 ∧
    k + 1 ≤ retries + 1 := by
  have h := autoRetryGo_flaky v func k retries 0 hk
    (fun i hi => by simpa using hfail i hi) (by simpa using hok)
  exact ⟨by simp [automatic_retries, h], by simp [automatic_retries_calls, h], by omega⟩

/-- Witness for the amended C3 theorem: `retries = 3`, two generic
failures, success with `7` on the third attempt. -/
theorem c3_witness :
    automatic_retries 3 true
        (fun i => if i < 2 then .raise ⟨false, false, false⟩ else .ok (7 : ℕ)) = .ok 7 ∧
    automatic_retries_calls 3 true
        (fun i => if i < 2 then .raise ⟨false, false, false⟩ else .ok (7 : ℕ)) = 2 + 1 ∧
    2 + 1 ≤ 3 + 1 :=
  c3_retry_flaky_success ℕ 3 2 7 _ (by omega)
    (fun i hi => ⟨⟨false, false, false⟩, by interval_cases i <;> simp, rfl, rfl⟩)
    (by simp)

/-- Claim C4 (counterexample): an exception whose chain mentions
`Auth failed` is NOT always re-raised: when `skip_bad_files` is set and
the chain also contains an `OSError` (e.g. an `OSError("... Auth failed")`,
as raised by XRootD), the bad-file branch runs first and
`automatic_retries` returns null (it skips) instead of re-raising. -/
theorem c4_counterexample :
    automatic_retries 3 true
        (fun _ => .raise (⟨true, true, false⟩ : PyExc) : ℕ → CallOutcome ℕ) =
      .skipped ∧
    automatic_retries 3 true
        (fun _ => .raise (⟨true, true, false⟩ : PyExc) : ℕ → CallOutcome ℕ) ≠
      .raised ⟨true, true, false⟩ := by
  decide

/-- Claim C4 (amended): `automatic_retries` re-raises an `Auth failed`
exception on the first attempt, without retrying and without returning
null, UNLESS a bad-file branch fires first: the exception chain must not
contain an `OSError`/`UprootMissTreeError` while `skip_bad_files` is set,
and must not match a transient message on a final first attempt
(`retries = 0`) while `skip_bad_files` is set. -/
theorem c4_auth_reraised_first_attempt (α : Type) (retries : ℕ) (skip : Bool)
    (func : ℕ → CallOutcome α) (e : PyExc) (h0 : func 0 = .raise e)
    (hauth : e.hasAuthMsg = true)
    (hio : ¬(skip = true ∧ e.isIOorTree = true))
    (htr : ¬(skip = true ∧ retries = 0 ∧ e.hasTransientMsg = true)) :
    automatic_retries retries skip func = .raised e ∧
    automatic_retries_calls retries skip func = 1 := by
  cases retries with
  | zero =>
    cases skip with
    | false =>
      constructor <;> simp [automatic_retries, automatic_retries_calls,
        autoRetryGo, retryStep, h0]
    | true =>
      have h1 : e.isIOorTree = false := by
        cases hE : e.isIOorTree
        · rfl
        · exact absurd ⟨rfl, hE⟩ hio
      have h2 : e.hasTransientMsg = false := by
        cases hE : e.hasTransientMsg
        · rfl
        · exact absurd ⟨rfl, rfl, hE⟩ htr
      constructor <;> simp [automatic_retries, automatic_retries_calls,
        autoRetryGo, retryStep, h0, h1, h2, hauth]
  | succ n =>
    cases skip with
    | false =>
      constructor <;> simp [automatic_retries, automatic_retries_calls,
        autoRetryGo, retryStep, h0]
    | true =>
      have h1 : e.isIOorTree = false := by
        cases hE : e.isIOorTree
        · rfl
        · exact absurd ⟨rfl, hE⟩ hio
      constructor <;> simp [automatic_retries, automatic_retries_calls,
        autoRetryGo, retryStep, h0, h1, hauth]

/-- Witness for the amended C4 theorem: a pure `Auth failed` exception
(no I/O instance in the chain) with `skip_bad_files` set is re-raised
after exactly one attempt. -/
theorem c4_witness :
    automatic_retries 5 true
        (fun _ => .raise (⟨false, true, false⟩ : PyExc) : ℕ → CallOutcome ℕ) =
      .raised ⟨false, true, false⟩ ∧
    automatic_retries_calls 5 true
        (fun _ => .raise (⟨false, true, false⟩ : PyExc) : ℕ → CallOutcome ℕ) = 1 :=
  c4_auth_reraised_first_attempt ℕ 5 true _ _ rfl rfl (by simp) (by simp)

/-- Claim C9: the codec round-trips and passes through: decompressing a
compression at any non-null level recovers the value, compression at a
null level is the identity, and decompression is the identity on any
value that is not a `bytes` instance. -/
theorem c9_codec_roundtrip (α : Type) :
    (∀ (x : PyObj α) (L : ℕ), pyDecompress (pyCompress x (some L)) = x) ∧
    (∀ x : PyObj α, pyCompress x none = x) ∧
    (∀ y : PyObj α, y.isBytes = false → pyDecompress y = y) := by
  refine ⟨fun x L => ?_, fun x => ?_, fun y h => ?_⟩
  · cases x <;> rfl
  · cases x <;> rfl
  · cases y
    · rfl
    · simp [PyObj.isBytes] at h
    · rfl

/-- Witness for the C9 theorem at concrete inputs. -/
theorem c9_witness :
    (PyObj.other (5 : ℕ)).isBytes = false ∧
    pyDecompress (PyObj.other (5 : ℕ)) = PyObj.other 5 ∧
    pyDecompress (pyCompress (PyObj.other (5 : ℕ)) (some 1)) = PyObj.other 5 ∧
    pyCompress (PyObj.other (5 : ℕ)) none = PyObj.other 5 :=
  ⟨by decide, (c9_codec_roundtrip ℕ).2.2 _ (by decide),
    (c9_codec_roundtrip ℕ).1 _ 1, (c9_codec_roundtrip ℕ).2.1 _⟩

/-- Claim C10: `_reduce` first discards the `None` entries of its batch
and raises `ValueError` exactly when nothing remains - in particular a
batch consisting entirely of null skip-results raises instead of yielding
an accumulator. -/
theorem c10_reduce_empty_iff (α : Type) (compression : Option ℕ)
    (merge : α → α → α) (items : List (PyObj α)) :
    reduceCall compression merge items = .error () ↔
      items.filter (fun it => !it.isNone) = [] := by
  unfold reduceCall
  rcases h : items.filter (fun it => !it.isNone) with _ | ⟨h1, t1⟩ <;>
    rw [h] <;> cases compression <;> simp

/-- Claim C7: `fetch(N)` pops `min(N, |completed|)` handles; if all popped
handles are good it returns their results and leaves the rest; otherwise
it restores the good popped handles, so the multiset of good handles in
`completed` is unchanged, and raises the exception of a bad popped
handle. -/
theorem c7_fetch_spec (α : Type) (N : ℕ) (completed : List (PyFuture α)) :
    ((completed.take (min N completed.length)).all goodFuture = true →
      fetchFH N completed =
        (.ok ((completed.take (min N completed.length)).map PyFuture.res),
          completed.drop (min N completed.length))) ∧
    ((completed.take (min N completed.length)).all goodFuture = false →
      (∃ b ∈ completed.take (min N completed.length),
        goodFuture b = false ∧ (fetchFH N completed).1 = .error b.exc) ∧
      ((fetchFH N completed).2.filter goodFuture).Perm
        (completed.filter goodFuture)) := by
  constructor
  · intro hall
    unfold fetchFH
    rw [if_pos hall, filterMap_good_eq_map _ hall]
  · intro hbad
    have hmatch : fetchFH N completed =
        (.error (match ((completed.take (min N completed.length)).filter
            fun f => !goodFuture f).head? with
          | some b => b.exc
          | none => none),
         completed.drop (min N completed.length) ++
           (completed.take (min N completed.length)).filter goodFuture) := by
      unfold fetchFH
      rw [if_neg (by simp [hbad])]
      rfl
    obtain ⟨x, hx, hxg⟩ := List.all_eq_false.mp hbad
    have hxg : goodFuture x = false := by
      cases hgx : goodFuture x
      · rfl
      · exact absurd hgx hxg
    have hne : ((completed.take (min N completed.length)).filter
        fun f => !goodFuture f) ≠ [] := by
      apply List.ne_nil_of_mem (a := x)
      rw [List.mem_filter]
      exact ⟨hx, by simp [hxg]⟩
    obtain ⟨b, t, hbt⟩ := List.exists_cons_of_ne_nil hne
    have hbmem : b ∈ (completed.take (min N completed.length)).filter
        fun f => !goodFuture f := by
      rw [hbt]; exact List.mem_cons_self b t
    rw [List.mem_filter] at hbmem
    refine ⟨⟨b, hbmem.1, by simpa using hbmem.2, ?_⟩, ?_⟩
    · rw [hmatch, hbt]
      rfl
    · rw [hmatch]
      have h1 : ((completed.take (min N completed.length)).filter goodFuture).filter
          goodFuture = (completed.take (min N completed.length)).filter goodFuture := by
        rw [List.filter_filter]
        exact List.filter_congr fun a _ => by cases goodFuture a <;> rfl
      have h2 : completed.filter goodFuture =
          (completed.take (min N completed.length)).filter goodFuture ++
            (completed.drop (min N completed.length)).filter goodFuture := by
        rw [← List.filter_append, List.take_append_drop]
      rw [List.filter_append, h1, h2]
      exact List.perm_append_comm

/-- Witness for the C7 theorem: a good and a failed handle; the good
handle survives in `completed` and the failed handle's exception is
raised. -/
theorem c7_witness :
    (∃ b ∈ fetchWitnessList.take (min 2 fetchWitnessList.length),
      goodFuture b = false ∧
        (fetchFH 2 fetchWitnessList).1 = .error b.exc) ∧
    ((fetchFH 2 fetchWitnessList).2.filter goodFuture).Perm
      (fetchWitnessList.filter goodFuture) :=
  (c7_fetch_spec ℕ 2 fetchWitnessList).2 (by decide)


theorem sliceChunksAux_congr (B : ℕ) (hB : 0 < B) :
    ∀ (f₁ : ℕ) (l : List β) (f₂ : ℕ), l.length ≤ f₁ → l.length ≤ f₂ →
      sliceChunksAux B f₁ l = sliceChunksAux B f₂ l := by
  intro f₁
  induction f₁ with
  | zero =>
    intro l f₂ h1 _
    have : l = [] := List.eq_nil_of_length_eq_zero (by omega)
    subst this
    cases f₂ <;> rfl
  | succ f ih =>
    intro l f₂ h1 h2
    cases l with
    | nil => cases f₂ <;> rfl
    | cons a t =>
      obtain ⟨g, rfl⟩ : ∃ g, f₂ = g + 1 := ⟨f₂ - 1, by simp at h2; omega⟩
      simp only [sliceChunksAux]
      simp only [List.length_cons] at h1 h2
      rw [ih ((a :: t).drop B) g (by simp; omega) (by simp; omega)]

theorem sliceChunks_cons_eq (B : ℕ) (hB : 0 < B) (l : List β) (hl : l ≠ []) :
    sliceChunks B l = l.take B :: sliceChunks B (l.drop B) := by
  obtain ⟨a, t, rfl⟩ := List.exists_cons_of_ne_nil hl
  unfold sliceChunks
  conv_lhs => rw [show (a :: t).length = t.length + 1 from rfl]
  simp only [sliceChunksAux]
  rw [sliceChunksAux_congr B hB t.length ((a :: t).drop B) ((a :: t).drop B).length
    (by simp; omega) le_rfl]

theorem sliceChunks_chunk_ne_nil_aux (B : ℕ) (hB : 0 < B) :
    ∀ (n : ℕ) (l : List β), l.length ≤ n → ∀ c ∈ sliceChunks B l, c ≠ [] := by
  intro n
  induction n with
  | zero =>
    intro l hn c hc
    have : l = [] := List.eq_nil_of_length_eq_zero (by omega)
    subst this
    cases hc
  | succ n ih =>
    intro l hn c hc
    cases l with
    | nil => cases hc
    | cons a t =>
      rw [sliceChunks_cons_eq B hB _ (List.cons_ne_nil a t)] at hc
      rcases List.mem_cons.mp hc with rfl | hc
      · simp [List.take_eq_nil_iff]
        omega
      · exact ih ((a :: t).drop B) (by simp at hn ⊢; omega) c hc

theorem sliceChunks_chunk_ne_nil (B : ℕ) (hB : 0 < B) (l : List β) :
    ∀ c ∈ sliceChunks B l, c ≠ [] :=
  sliceChunks_chunk_ne_nil_aux B hB l.length l le_rfl

theorem sliceChunks_flatten_aux (B : ℕ) (hB : 0 < B) :
    ∀ (n : ℕ) (l : List β), l.length ≤ n → (sliceChunks B l).flatten = l := by
  intro n
  induction n with
  | zero =>
    intro l hn
    have : l = [] := List.eq_nil_of_length_eq_zero (by omega)
    subst this
    rfl
  | succ n ih =>
    intro l hn
    cases l with
    | nil => rfl
    | cons a t =>
      rw [sliceChunks_cons_eq B hB _ (List.cons_ne_nil a t), List.flatten_cons,
        ih ((a :: t).drop B) (by simp at hn ⊢; omega), List.take_append_drop]

theorem sliceChunks_flatten (B : ℕ) (hB : 0 < B) (l : List β) :
    (sliceChunks B l).flatten = l :=
  sliceChunks_flatten_aux B hB l.length l le_rfl

theorem sliceChunks_length_le_aux (B : ℕ) (hB : 0 < B) :
    ∀ (n : ℕ) (l : List β), l.length ≤ n → (sliceChunks B l).length ≤ l.length := by
  intro n
  induction n with
  | zero =>
    intro l hn
    have : l = [] := List.eq_nil_of_length_eq_zero (by omega)
    subst this
    simp [sliceChunks, sliceChunksAux]
  | succ n ih =>
    intro l hn
    cases l with
    | nil => simp [sliceChunks, sliceChunksAux]
    | cons a t =>
      rw [sliceChunks_cons_eq B hB _ (List.cons_ne_nil a t)]
      have := ih ((a :: t).drop B) (by simp at hn ⊢; omega)
      simp only [List.length_cons, List.length_drop] at this ⊢
      omega

theorem sliceChunks_length_lt (B : ℕ) (hB : 2 ≤ B) (l : List β)
    (hl : 2 ≤ l.length) : (sliceChunks B l).length < l.length := by
  rw [sliceChunks_cons_eq B (by omega) l (by intro h; subst h; simp at hl)]
  have := sliceChunks_length_le_aux B (by omega) (l.drop B).length (l.drop B) le_rfl
  simp only [List.length_cons, List.length_drop] at this ⊢
  omega

theorem sliceChunks_map_aux (B : ℕ) (hB : 0 < B) (f : β → γ) :
    ∀ (n : ℕ) (l : List β), l.length ≤ n →
      sliceChunks B (l.map f) = (sliceChunks B l).map (List.map f) := by
  intro n
  induction n with
  | zero =>
    intro l hn
    have : l = [] := List.eq_nil_of_length_eq_zero (by omega)
    subst this
    rfl
  | succ n ih =>
    intro l hn
    cases l with
    | nil => rfl
    | cons a t =>
      obtain ⟨m, rfl⟩ : ∃ m, B = m + 1 := ⟨B - 1, by omega⟩
      rw [sliceChunks_cons_eq (m + 1) hB ((a :: t).map f) (by simp),
        sliceChunks_cons_eq (m + 1) hB (a :: t) (List.cons_ne_nil a t)]
      simp only [List.map_cons, List.take_succ_cons, List.drop_succ_cons,
        List.map_take]
      rw [← List.map_drop, ih (t.drop m) (by simp at hn ⊢; omega)]

theorem foldl_merge_assoc (merge : α → α → α)
    (hassoc : ∀ a b c, merge (merge a b) c = merge a (merge b c)) :
    ∀ (l : List α) (z a : α),
      List.foldl merge (merge z a) l = merge z (List.foldl merge a l) := by
  intro l
  induction l with
  | nil => intro z a; rfl
  | cons x t ih =>
    intro z a
    rw [List.foldl_cons, List.foldl_cons, hassoc, ih]

theorem foldl_eq_merge_batchFold [Inhabited α] (merge : α → α → α)
    (hassoc : ∀ a b c, merge (merge a b) c = merge a (merge b c))
    (c : List α) (hc : c ≠ []) (z : α) :
    List.foldl merge z c = merge z (batchFold merge c) := by
  obtain ⟨h, t, rfl⟩ := List.exists_cons_of_ne_nil hc
  rw [List.foldl_cons, batchFold]
  simp only [List.tail_cons, List.head!_cons]
  exact foldl_merge_assoc merge hassoc t z h

theorem batchFold_append [Inhabited α] (merge : α → α → α) (c L : List α)
    (hc : c ≠ []) :
    batchFold merge (c ++ L) = List.foldl merge (batchFold merge c) L := by
  obtain ⟨h, t, rfl⟩ := List.exists_cons_of_ne_nil hc
  simp only [batchFold, List.cons_append, List.tail_cons, List.head!_cons,
    List.foldl_append]

theorem foldl_map_batchFold [Inhabited α] (merge : α → α → α)
    (hassoc : ∀ a b c, merge (merge a b) c = merge a (merge b c)) :
    ∀ (chunks : List (List α)), (∀ c ∈ chunks, c ≠ []) → ∀ (z : α),
      List.foldl merge z (chunks.map (batchFold merge)) =
        List.foldl merge z chunks.flatten := by
  intro chunks
  induction chunks with
  | nil => intro _ z; rfl
  | cons c rest ih =>
    intro hne z
    rw [List.map_cons, List.foldl_cons, List.flatten_cons, List.foldl_append,
      ih (fun d hd => hne d (List.mem_cons_of_mem c hd))]
    rw [← foldl_eq_merge_batchFold merge hassoc c (hne c (List.mem_cons_self c rest)) z]

theorem batchFold_round [Inhabited α] (merge : α → α → α)
    (hassoc : ∀ a b c, merge (merge a b) c = merge a (merge b c))
    (B : ℕ) (hB : 0 < B) (l : List α) (hl : l ≠ []) :
    batchFold merge ((sliceChunks B l).map (batchFold merge)) = batchFold merge l := by
  have hch : sliceChunks B l ≠ [] := by
    rw [sliceChunks_cons_eq B hB l hl]
    exact List.cons_ne_nil _ _
  obtain ⟨c1, rest, hdec⟩ := List.exists_cons_of_ne_nil hch
  have hne : ∀ c ∈ sliceChunks B l, c ≠ [] := sliceChunks_chunk_ne_nil B hB l
  have hc1 : c1 ≠ [] := hne c1 (by rw [hdec]; exact List.mem_cons_self c1 rest)
  have hflat : c1 ++ rest.flatten = l := by
    have := sliceChunks_flatten B hB l
    rw [hdec, List.flatten_cons] at this
    exact this
  rw [hdec, List.map_cons, batchFold]
  simp only [List.tail_cons, List.head!_cons]
  rw [foldl_map_batchFold merge hassoc rest
    (fun d hd => hne d (by rw [hdec]; exact List.mem_cons_of_mem c1 hd))]
  rw [← batchFold_append merge c1 rest.flatten hc1, hflat]

theorem foldl_pyMerge_other (merge : α → α → α) :
    ∀ (t : List α) (a : α),
      (t.map PyObj.other).foldl (pyMerge merge) (PyObj.other a) =
        PyObj.other (t.foldl merge a) := by
  intro t
  induction t with
  | nil => intro a; rfl
  | cons x s ih =>
    intro a
    rw [List.map_cons, List.foldl_cons, List.foldl_cons]
    exact ih _

theorem reduceCall_none_other [Inhabited α] (merge : α → α → α) (c : List α)
    (hc : c ≠ []) :
    reduceCall none merge (c.map PyObj.other) = .ok (.other (batchFold merge c)) := by
  obtain ⟨h, t, rfl⟩ := List.exists_cons_of_ne_nil hc
  have hfil : ((h :: t).map PyObj.other).filter (fun it => !it.isNone) =
      (h :: t).map PyObj.other := by
    rw [List.filter_eq_self]
    intro a ha
    obtain ⟨x, _, rfl⟩ := List.mem_map.mp ha
    rfl
  unfold reduceCall
  rw [hfil]
  show Except.ok ((t.map PyObj.other).foldl (pyMerge merge) (PyObj.other h)) =
    Except.ok (PyObj.other (batchFold merge (h :: t)))
  rw [foldl_pyMerge_other merge t h]
  rfl

theorem mapM_reduce_mapped [Inhabited α] (merge : α → α → α) :
    ∀ (chunks : List (List α)), (∀ c ∈ chunks, c ≠ []) →
      (chunks.map (List.map PyObj.other)).mapM (reduceCall none merge) =
        .ok (chunks.map fun c => PyObj.other (batchFold merge c)) := by
  intro chunks
  induction chunks with
  | nil => intro _; rfl
  | cons c rest ih =>
    intro hne
    rw [List.map_cons, List.mapM_cons,
      reduceCall_none_other merge c (hne c (List.mem_cons_self c rest))]
    rw [show ∀ k : PyObj α → Except Unit (List (PyObj α)),
      (Except.ok (PyObj.other (batchFold merge c)) >>= k) =
        k (.other (batchFold merge c)) from fun k => rfl]
    rw [ih (fun d hd => hne d (List.mem_cons_of_mem c hd))]
    rfl

theorem daskTreeLoop_none_other [Inhabited α] (merge : α → α → α)
    (hassoc : ∀ a b c, merge (merge a b) c = merge a (merge b c))
    (B : ℕ) (hB : 2 ≤ B) :
    ∀ (fuel : ℕ) (l : List α), l ≠ [] → l.length ≤ fuel + 1 →
      daskTreeLoop none merge B fuel (l.map PyObj.other) =
        .ok [.other (batchFold merge l)] := by
  intro fuel
  induction fuel with
  | zero =>
    intro l hl hlen
    obtain ⟨x, t, rfl⟩ := List.exists_cons_of_ne_nil hl
    have : t = [] := by
      have h1 := hlen
      simp only [List.length_cons] at h1
      exact List.eq_nil_of_length_eq_zero (by omega)
    subst this
    rfl
  | succ fuel ih =>
    intro l hl hlen
    by_cases hlong : 1 < l.length
    · have hguard : 1 < ((l.map PyObj.other)).length := by simpa using hlong
      have hmapM : (sliceChunks B (l.map PyObj.other)).mapM (reduceCall none merge) =
          .ok (((sliceChunks B l).map (batchFold merge)).map PyObj.other) := by
        rw [sliceChunks_map_aux B (by omega) PyObj.other l.length l le_rfl,
          mapM_reduce_mapped merge (sliceChunks B l)
            (sliceChunks_chunk_ne_nil B (by omega) l),
          List.map_map]
        rfl
      have hnext : ((sliceChunks B l).map (batchFold merge)) ≠ [] := by
        have : sliceChunks B l ≠ [] := by
          rw [sliceChunks_cons_eq B (by omega) l hl]
          exact List.cons_ne_nil _ _
        simpa using this
      have hlt : ((sliceChunks B l).map (batchFold merge)).length < l.length := by
        rw [List.length_map]
        exact sliceChunks_length_lt B hB l (by omega)
      rw [daskTreeLoop, if_pos hguard, hmapM]
      show daskTreeLoop none merge B fuel
          (((sliceChunks B l).map (batchFold merge)).map PyObj.other) =
        Except.ok [PyObj.other (batchFold merge l)]
      rw [ih ((sliceChunks B l).map (batchFold merge)) hnext (by omega)]
      rw [batchFold_round merge hassoc B (by omega) l hl]
    · obtain ⟨x, t, rfl⟩ := List.exists_cons_of_ne_nil hl
      have : t = [] := by
        have h1 := hlong
        simp only [List.length_cons, not_lt] at h1
        exact List.eq_nil_of_length_eq_zero (by omega)
      subst this
      rfl

theorem pyCompress_none (r : PyObj α) : pyCompress r none = r := by
  cases r <;> rfl

/-- Claim C8 (counterexample): with the default in-flight compression
(level 1, as `DaskExecutor` defaults to) the compressed `_reduce` pops the
LAST element of each batch as the fold seed, so for the associative but
non-commutative list-concatenation merge, branching factor 2 and task
results `[[0], [1], [2]]`, the tree reduction yields `[2, 1, 0]` - not the
left merge-fold `[0, 1, 2]` of the task results with the `[]` zero. -/
theorem c8_counterexample :
    daskReduceResult (some 1) (· ++ ·) 2 ([[0], [1], [2]].map PyObj.other)
        (PyObj.other ([] : List ℕ)) ≠
      .ok (.other (List.foldl (· ++ ·) [] [[0], [1], [2]])) := by
  decide

/-- Claim C8 (amended): with the codec disabled (`compression = None`, as
in `use_dataframes` mode or the preprocessing override), the Dask tree
reduction over consecutive slices of any branching factor `B ≥ 2`,
followed by the final `accumulate` with the zero accumulator, equals the
left merge-fold of the task results with zero, for every associative
merge.  (With compression on, each `_reduce` batch is folded starting
from its popped last element, so the same multiset is merged in a
different order - see the counterexample.) -/
theorem c8_tree_reduce_foldl (α : Type) [Inhabited α] (merge : α → α → α)
    (hassoc : ∀ a b c, merge (merge a b) c = merge a (merge b c))
    (B : ℕ) (hB : 2 ≤ B) (zero : α) (results : List α) (hne : results ≠ []) :
    daskReduceResult none merge B (results.map PyObj.other) (PyObj.other zero) =
      .ok (.other (results.foldl merge zero)) := by
  have hcomp : (results.map PyObj.other).map (fun r => pyCompress r none) =
      results.map PyObj.other := by
    simp [pyCompress_none]
  simp only [daskReduceResult]
  rw [hcomp, List.length_map]
  rw [daskTreeLoop_none_other merge hassoc B hB results.length results hne (by omega)]
  show Except.ok (accumulateSpecFull merge
      [PyObj.other (batchFold merge results)] (PyObj.other zero)) =
    Except.ok (PyObj.other (List.foldl merge zero results))
  rw [foldl_eq_merge_batchFold merge hassoc results hne zero]
  rfl

/-- Witness for the amended C8 theorem: 3 integer results, branching
factor 2, zero 0. -/
theorem c8_witness :
    daskReduceResult none (· + ·) 2 ([1, 2, 3].map PyObj.other)
        (PyObj.other (0 : ℕ)) =
      .ok (.other (List.foldl (· + ·) 0 [1, 2, 3])) :=
  c8_tree_reduce_foldl ℕ (· + ·) (fun a b c => Nat.add_assoc a b c) 2 (by omega)
    0 [1, 2, 3] (by decide)

theorem getLastBang_eq_getLast (l : List ℕ) (h : l ≠ []) : l.getLast! = l.getLast h := by
  induction l with
  | nil => exact absurd rfl h
  | cons a t ih =>
    cases t with
    | nil => rfl
    | cons b t2 =>
      rw [List.getLast_cons (List.cons_ne_nil b t2), ← ih (List.cons_ne_nil b t2)]
      rfl

theorem chain_le_getLast :
    ∀ (t : List ℕ) (a : ℕ), List.Chain (· ≤ ·) a t →
      a ≤ (a :: t).getLast (List.cons_ne_nil a t) := by
  intro t
  induction t with
  | nil => intro a _; exact le_refl a
  | cons b t2 ih =>
    intro a h
    rw [List.chain_cons] at h
    rw [List.getLast_cons (List.cons_ne_nil b t2)]
    exact le_trans h.1 (ih b h.2)

theorem mem_le_getLast :
    ∀ (l : List ℕ) (hl : l ≠ []), List.Chain' (· ≤ ·) l →
      ∀ x ∈ l, x ≤ l.getLast hl := by
  intro l
  induction l with
  | nil => intro hl; exact absurd rfl hl
  | cons a t ih =>
    intro _ hch x hx
    rcases List.mem_cons.mp hx with rfl | hx
    · exact chain_le_getLast t x hch
    · have ht : t ≠ [] := List.ne_nil_of_mem hx
      rw [List.getLast_cons ht]
      refine ih ht ?_ x hx
      obtain ⟨b, t2, rfl⟩ := List.exists_cons_of_ne_nil ht
      exact (List.chain_cons.mp hch).2

theorem chain_snoc :
    ∀ (t : List ℕ) (a b : ℕ), List.Chain (· ≤ ·) a t →
      (a :: t).getLast (List.cons_ne_nil a t) ≤ b →
      List.Chain (· ≤ ·) a (t ++ [b]) := by
  intro t
  induction t with
  | nil =>
    intro a b _ h2
    exact List.Chain.cons h2 List.Chain.nil
  | cons c t2 ih =>
    intro a b h h2
    rw [List.chain_cons] at h
    rw [List.getLast_cons (List.cons_ne_nil c t2)] at h2
    exact List.Chain.cons h.1 (ih c b h.2 h2)

theorem alignedGo_subset (target : ℕ) :
    ∀ (cs : List ℕ) (last x : ℕ), x ∈ alignedGo target last cs → x ∈ cs := by
  intro cs
  induction cs with
  | nil => intro last x h; cases h
  | cons c cs2 ih =>
    intro last x h
    rw [alignedGo] at h
    by_cases hc : last + target ≤ c
    · rw [if_pos hc] at h
      rcases List.mem_cons.mp h with rfl | h
      · exact List.mem_cons_self x cs2
      · exact List.mem_cons_of_mem c (ih c x h)
    · rw [if_neg hc] at h
      exact List.mem_cons_of_mem c (ih last x h)

theorem alignedGo_chain (target : ℕ) (hT : 0 < target) :
    ∀ (cs : List ℕ) (last : ℕ), List.Chain (· < ·) last (alignedGo target last cs) := by
  intro cs
  induction cs with
  | nil => intro last; exact List.Chain.nil
  | cons c cs2 ih =>
    intro last
    rw [alignedGo]
    by_cases hc : last + target ≤ c
    · rw [if_pos hc]
      exact List.Chain.cons (by omega) (ih c)
    · rw [if_neg hc]
      exact ih last

theorem aligned_bounds_structure (cl : List ℕ) (target : ℕ) (hT : 0 < target)
    (hcl : cl ≠ []) (hmono : List.Chain' (· ≤ ·) cl) :
    ∃ rest, alignedBoundsList cl target = 0 :: rest ∧
      List.Chain (· ≤ ·) 0 rest ∧
      (0 :: rest).getLast (List.cons_ne_nil 0 rest) = cl.getLast! := by
  have hchain : List.Chain (· ≤ ·) 0 (alignedGo target 0 cl) :=
    (alignedGo_chain target hT cl 0).imp fun a b h => le_of_lt h
  have hmemle : ∀ x ∈ cl, x ≤ cl.getLast! := by
    intro x hx
    rw [getLastBang_eq_getLast cl hcl]
    exact mem_le_getLast cl hcl hmono x hx
  unfold alignedBoundsList
  by_cases hcase : cl.getLast! ≠ (0 :: alignedGo target 0 cl).getLast!
  · rw [if_pos hcase]
    refine ⟨alignedGo target 0 cl ++ [cl.getLast!], by rw [List.cons_append], ?_, ?_⟩
    · refine chain_snoc (alignedGo target 0 cl) 0 cl.getLast! hchain ?_
      have hmem := List.getLast_mem (List.cons_ne_nil 0 (alignedGo target 0 cl))
      rcases List.mem_cons.mp hmem with heq | hmem
      · rw [heq]; exact Nat.zero_le _
      · exact hmemle _ (alignedGo_subset target cl 0 _ hmem)
    · show ((0 :: alignedGo target 0 cl) ++ [cl.getLast!]).getLast
          (by simp) = cl.getLast!
      exact List.getLast_concat _
  · rw [if_neg hcase]
    refine ⟨alignedGo target 0 cl, rfl, hchain, ?_⟩
    rw [← getLastBang_eq_getLast]
    exact (not_ne_iff.mp hcase).symm

theorem boundsToPairs_fst_ge :
    ∀ (t : List ℕ) (a : ℕ), List.Chain (· ≤ ·) a t →
      ∀ p ∈ boundsToPairs (a :: t), a ≤ p.1 := by
  intro t
  induction t with
  | nil => intro a _ p hp; cases hp
  | cons b t2 ih =>
    intro a h p hp
    rw [List.chain_cons] at h
    rcases List.mem_cons.mp hp with rfl | hp
    · exact le_refl a
    · exact le_trans h.1 (ih b h.2 p hp)

theorem boundsToPairs_pairwise :
    ∀ (t : List ℕ) (a : ℕ), List.Chain (· ≤ ·) a t →
      (boundsToPairs (a :: t)).Pairwise (fun p q => p.2 ≤ q.1) := by
  intro t
  induction t with
  | nil => intro a _; exact List.Pairwise.nil
  | cons b t2 ih =>
    intro a h
    rw [List.chain_cons] at h
    refine List.Pairwise.cons ?_ (ih b h.2)
    intro q hq
    exact boundsToPairs_fst_ge t2 b h.2 q hq

theorem boundsToPairs_union :
    ∀ (t : List ℕ) (a : ℕ), List.Chain (· ≤ ·) a t → ∀ x : ℕ,
      (∃ p ∈ boundsToPairs (a :: t), p.1 ≤ x ∧ x < p.2) ↔
        (a ≤ x ∧ x < (a :: t).getLast (List.cons_ne_nil a t)) := by
  intro t
  induction t with
  | nil =>
    intro a _ x
    constructor
    · rintro ⟨p, hp, _⟩; cases hp
    · rintro ⟨h1, h2⟩
      simp only [List.getLast_singleton] at h2
      omega
  | cons b t2 ih =>
    intro a h x
    rw [List.chain_cons] at h
    have hab : a ≤ b := h.1
    have hbl : b ≤ (b :: t2).getLast (List.cons_ne_nil b t2) :=
      chain_le_getLast t2 b h.2
    rw [List.getLast_cons (List.cons_ne_nil b t2)]
    constructor
    · rintro ⟨p, hp, hx1, hx2⟩
      rcases List.mem_cons.mp hp with rfl | hp
      · exact ⟨hx1, by omega⟩
      · have := (ih b h.2 x).mp ⟨p, hp, hx1, hx2⟩
        exact ⟨by omega, this.2⟩
    · rintro ⟨h1, h2⟩
      by_cases hxb : x < b
      · exact ⟨(a, b), List.mem_cons_self _ _, h1, hxb⟩
      · obtain ⟨p, hp, hx1, hx2⟩ := (ih b h.2 x).mpr ⟨by omega, h2⟩
        exact ⟨p, List.mem_cons_of_mem _ hp, hx1, hx2⟩

theorem mem_boundsToPairs (bs : List ℕ) (p : ℕ × ℕ) (hp : p ∈ boundsToPairs bs) :
    p.1 ∈ bs ∧ p.2 ∈ bs.tail := by
  unfold boundsToPairs at hp
  exact ⟨(List.of_mem_zip hp).1, (List.of_mem_zip hp).2⟩

theorem pyCeilDiv_pos (a b : ℕ) (ha : 0 < a) (hb : 0 < b) : 0 < pyCeilDiv a b := by
  unfold pyCeilDiv
  have h1 : 1 ≤ (a + b - 1) / b := by
    rw [Nat.le_div_iff_mul_le hb]
    omega
  omega

theorem unalignedGo_spec (numentries actual : ℕ) (hact : 0 < actual) :
    ∀ (fuel start : ℕ), numentries ≤ start + fuel →
      ((unalignedGo numentries actual fuel start).Pairwise (fun p q => p.2 ≤ q.1) ∧
        (∀ p ∈ unalignedGo numentries actual fuel start, start ≤ p.1) ∧
        (∀ x : ℕ, (∃ p ∈ unalignedGo numentries actual fuel start,
            p.1 ≤ x ∧ x < p.2) ↔ (start ≤ x ∧ x < numentries))) := by
  intro fuel
  induction fuel with
  | zero =>
    intro start hb
    refine ⟨List.Pairwise.nil, fun p hp => absurd hp (by simp [unalignedGo]), fun x => ?_⟩
    constructor
    · rintro ⟨p, hp, _⟩
      exact absurd hp (by simp [unalignedGo])
    · rintro ⟨h1, h2⟩
      omega
  | succ fuel ih =>
    intro start hb
    rw [unalignedGo]
    by_cases hs : start < numentries
    · rw [if_pos hs]
      have hm : start < min numentries (start + actual) ∧
          min numentries (start + actual) ≤ numentries := by omega
      obtain ⟨hrec1, hrec2, hrec3⟩ :=
        ih (min numentries (start + actual)) (by omega)
      refine ⟨?_, ?_, ?_⟩
      · refine List.Pairwise.cons ?_ hrec1
        intro q hq
        exact hrec2 q hq
      · intro p hp
        rcases List.mem_cons.mp hp with rfl | hp
        · exact le_refl start
        · exact le_trans (by omega) (hrec2 p hp)
      · intro x
        constructor
        · rintro ⟨p, hp, hx1, hx2⟩
          rcases List.mem_cons.mp hp with rfl | hp
          · simp only at hx1 hx2
            exact ⟨hx1, by omega⟩
          · have := (hrec3 x).mp ⟨p, hp, hx1, hx2⟩
            exact ⟨by omega, this.2⟩
        · rintro ⟨h1, h2⟩
          by_cases hxm : x < min numentries (start + actual)
          · exact ⟨(start, min numentries (start + actual)),
              List.mem_cons_self _ _, h1, hxm⟩
          · obtain ⟨p, hp, hx1, hx2⟩ := (hrec3 x).mpr ⟨by omega, h2⟩
            exact ⟨p, List.mem_cons_of_mem _ hp, hx1, hx2⟩
    · rw [if_neg hs]
      refine ⟨List.Pairwise.nil, fun p hp => absurd hp (by simp), fun x => ?_⟩
      constructor
      · rintro ⟨p, hp, _⟩
        exact absurd hp (by simp)
      · rintro ⟨h1, h2⟩
        omega

theorem workitems_of_pairs (d f t u N : ℕ) (ps : List (ℕ × ℕ))
    (hpw : ps.Pairwise fun p q => p.2 ≤ q.1)
    (hun : ∀ x : ℕ, (∃ p ∈ ps, p.1 ≤ x ∧ x < p.2) ↔ x < N) :
    ((ps.map fun p => (⟨d, f, t, p.1, p.2, u⟩ : WorkItem ℕ)).Pairwise
      fun v w => Disjoint (Set.Ico v.entrystart v.entrystop)
        (Set.Ico w.entrystart w.entrystop)) ∧
    (⋃ w ∈ ps.map fun p => (⟨d, f, t, p.1, p.2, u⟩ : WorkItem ℕ),
      Set.Ico w.entrystart w.entrystop) = Set.Ico 0 N := by
  constructor
  · rw [List.pairwise_map]
    refine hpw.imp ?_
    intro p q hpq
    rw [Set.disjoint_left]
    intro x hx1 hx2
    rw [Set.mem_Ico] at hx1 hx2
    simp only at hx1 hx2
    omega
  · ext x
    simp only [Set.mem_iUnion, Set.mem_Ico, List.mem_map, exists_prop,
      exists_exists_and_eq_and]
    constructor
    · rintro ⟨p, hp, hx1, hx2⟩
      exact ⟨Nat.zero_le x, (hun x).mp ⟨p, hp, hx1, hx2⟩⟩
    · rintro ⟨_, hxN⟩
      obtain ⟨p, hp, hx1, hx2⟩ := (hun x).mpr hxN
      exact ⟨p, hp, hx1, hx2⟩

theorem aligned_bounds_mem (cl : List ℕ) (target : ℕ) (hcl : cl ≠ []) :
    ∀ x ∈ alignedBoundsList cl target, x = 0 ∨ x ∈ cl := by
  have hlastmem : cl.getLast! ∈ cl := by
    rw [getLastBang_eq_getLast cl hcl]
    exact List.getLast_mem hcl
  intro x hx
  unfold alignedBoundsList at hx
  by_cases hcase : cl.getLast! ≠ (0 :: alignedGo target 0 cl).getLast!
  · rw [if_pos hcase] at hx
    rcases List.mem_append.mp hx with hx | hx
    · rcases List.mem_cons.mp hx with rfl | hx
      · exact Or.inl rfl
      · exact Or.inr (alignedGo_subset target cl 0 x hx)
    · rw [List.mem_singleton.mp hx]
      exact Or.inr hlastmem
  · rw [if_neg hcase] at hx
    rcases List.mem_cons.mp hx with rfl | hx
    · exact Or.inl rfl
    · exact Or.inr (alignedGo_subset target cl 0 x hx)

theorem aligned_bounds_tail_mem (cl : List ℕ) (target : ℕ) (hcl : cl ≠ []) :
    ∀ x ∈ (alignedBoundsList cl target).tail, x ∈ cl := by
  have hlastmem : cl.getLast! ∈ cl := by
    rw [getLastBang_eq_getLast cl hcl]
    exact List.getLast_mem hcl
  intro x hx
  unfold alignedBoundsList at hx
  by_cases hcase : cl.getLast! ≠ (0 :: alignedGo target 0 cl).getLast!
  · rw [if_pos hcase, List.cons_append, List.tail_cons] at hx
    rcases List.mem_append.mp hx with hx | hx
    · exact alignedGo_subset target cl 0 x hx
    · rw [List.mem_singleton.mp hx]
      exact hlastmem
  · rw [if_neg hcase, List.tail_cons] at hx
    exact alignedGo_subset target cl 0 x hx

/-- Claim C5: for every ready `FileMeta` with `numentries = N > 0` and
positive target chunksize, in both cluster-aligned mode (for a
cluster-ready record whose monotone cluster list ends at `N`) and
unaligned mode, the emitted `WorkItem`s' half-open entry ranges are
pairwise disjoint and their union is `[0, N)`. -/
theorem c5_chunks_partition (align : Bool) (d f t u N target : ℕ)
    (clusters : Option (List ℕ)) (ws : List (WorkItem ℕ))
    (hN : 0 < N) (hT : 0 < target)
    (hcl : align = true → ∃ cl, clusters = some cl ∧ cl ≠ [] ∧
      List.Chain' (· ≤ ·) cl ∧ cl.getLast! = N)
    (hws : (FileMeta.mk d f t (some ⟨N, u, clusters⟩)).chunksOf target align =
      some ws) :
    (ws.Pairwise fun v w => Disjoint (Set.Ico v.entrystart v.entrystop)
      (Set.Ico w.entrystart w.entrystop)) ∧
    (⋃ w ∈ ws, Set.Ico w.entrystart w.entrystop) = Set.Ico 0 N := by
  cases align with
  | true =>
    obtain ⟨cl, rfl, hclne, hmono, hlast⟩ := hcl rfl
    simp only [FileMeta.chunksOf, if_true, Option.some.injEq] at hws
    subst hws
    obtain ⟨rest, hb, hchain, hgl⟩ :=
      aligned_bounds_structure cl target hT hclne hmono
    have hpw : (fmAlignedChunks cl target).Pairwise fun p q => p.2 ≤ q.1 := by
      unfold fmAlignedChunks
      rw [hb]
      exact boundsToPairs_pairwise rest 0 hchain
    have hun : ∀ x : ℕ, (∃ p ∈ fmAlignedChunks cl target, p.1 ≤ x ∧ x < p.2) ↔
        x < N := by
      intro x
      unfold fmAlignedChunks
      rw [hb]
      rw [boundsToPairs_union rest 0 hchain x, hgl, hlast]
      omega
    exact workitems_of_pairs d f t u N (fmAlignedChunks cl target) hpw hun
  | false =>
    simp only [FileMeta.chunksOf, Bool.false_eq_true, if_false,
      Option.some.injEq] at hws
    subst hws
    have hact : 0 < pyCeilDiv N (max (pyRound N target) 1) :=
      pyCeilDiv_pos N _ hN (by omega)
    obtain ⟨hpw, _, hun⟩ := unalignedGo_spec N _ hact N 0 (by omega)
    refine workitems_of_pairs d f t u N (fmUnalignedChunks N target) hpw ?_
    intro x
    rw [show fmUnalignedChunks N target =
      unalignedGo N (pyCeilDiv N (max (pyRound N target) 1)) N 0 from rfl]
    rw [hun x]
    omega

/-- Witness for the C5 theorem: the unaligned 250-entry file with target
chunksize 100 is partitioned into `[0, 125)` and `[125, 250)`. -/
theorem c5_witness :
    (([⟨0, 0, 0, 0, 125, 0⟩, ⟨0, 0, 0, 125, 250, 0⟩] :
        List (WorkItem ℕ)).Pairwise fun v w =>
      Disjoint (Set.Ico v.entrystart v.entrystop)
        (Set.Ico w.entrystart w.entrystop)) ∧
    (⋃ w ∈ ([⟨0, 0, 0, 0, 125, 0⟩, ⟨0, 0, 0, 125, 250, 0⟩] :
        List (WorkItem ℕ)), Set.Ico w.entrystart w.entrystop) =
      Set.Ico 0 250 :=
  c5_chunks_partition false 0 0 0 0 250 100 none _ (by omega) (by omega)
    (fun h => nomatch h) (by decide)

/-- Claim C6: in cluster-aligned mode every emitted boundary is a cluster
offset, except that the very first `entrystart` is the fixed starting
boundary `0` (which is itself a cluster offset whenever `0` is the first
element of `clusters`). -/
theorem c6_aligned_boundaries (d f t u N target : ℕ) (cl : List ℕ)
    (ws : List (WorkItem ℕ)) (hcl : cl ≠ [])
    (hws : (FileMeta.mk d f t (some ⟨N, u, some cl⟩)).chunksOf target true =
      some ws) :
    ∀ w ∈ ws, (w.entrystart ∈ cl ∨ w.entrystart = 0) ∧ w.entrystop ∈ cl := by
  simp only [FileMeta.chunksOf, if_true, Option.some.injEq] at hws
  subst hws
  intro w hw
  obtain ⟨p, hp, rfl⟩ := List.mem_map.mp hw
  obtain ⟨h1, h2⟩ := mem_boundsToPairs _ p hp
  constructor
  · rcases aligned_bounds_mem cl target hcl p.1 h1 with h | h
    · exact Or.inr h
    · exact Or.inl h
  · exact aligned_bounds_tail_mem cl target hcl p.2 h2

/-- Witness for the C6 theorem: clusters `[0, 40, 90, 150]` with target
chunksize 50 produce the boundary-aligned items `[0, 90)` and
`[90, 150)`. -/
theorem c6_witness :
    ((⟨0, 0, 0, 90, 150, 0⟩ : WorkItem ℕ).entrystart ∈ [0, 40, 90, 150] ∨
      (⟨0, 0, 0, 90, 150, 0⟩ : WorkItem ℕ).entrystart = 0) ∧
    (⟨0, 0, 0, 90, 150, 0⟩ : WorkItem ℕ).entrystop ∈ [0, 40, 90, 150] :=
  c6_aligned_boundaries 0 0 0 0 150 50 [0, 40, 90, 150]
    [⟨0, 0, 0, 0, 90, 0⟩, ⟨0, 0, 0, 90, 150, 0⟩] (by decide) (by decide)
    ⟨0, 0, 0, 90, 150, 0⟩ (by decide)
